import Mathlib

/-!
Verification of the bounding-box and partition components of `tracer_bvh`.

This file shallowly embeds the Rust sources `src/bbox.rs`, `src/partition.rs`
and `src/linalg/mod.rs` of the `tracer_bvh` repository and proves (or refutes)
the specification claims about them.

Machine floats (`f32`) are modelled by the type `F32`: an exact extended
rational number together with the two IEEE-754 infinities and a NaN value.
Arithmetic follows the IEEE-754 special-value rules (`∞ - ∞ = NaN`,
`0 * ∞ = NaN`, division by zero produces a signed infinity, every comparison
involving NaN is false, and Rust's `f32::min`/`f32::max` return the non-NaN
operand when exactly one argument is NaN).  The idealisation relative to real
`f32` is that finite arithmetic is exact (no rounding) and there is a single
zero (no `-0.0`).

The vector type (`src/linalg/vector.rs`) and the ray abstraction
(`src/linalg/ray.rs`) are not part of the source snapshot; they are modelled
from the specification where needed.
-/

/-- Exact model of an `f32` value: NaN, `-∞`, a finite (exact rational)
value, or `+∞`. -/
inductive F32 where
  | nan : F32
  | ninf : F32
  | fin (q : ℚ) : F32
  | pinf : F32
deriving DecidableEq, Repr

namespace F32

/-- Test `x.isNan`, true exactly for the NaN value. -/
def isNan : F32 → Bool
  | nan => true
  | _ => false

/-- IEEE-754 `<` comparison: false whenever either operand is NaN. -/
def flt : F32 → F32 → Bool
  | nan, _ => false
  | _, nan => false
  | ninf, ninf => false
  | ninf, fin _ => true
  | ninf, pinf => true
  | fin _, ninf => false
  | fin a, fin b => decide (a < b)
  | fin _, pinf => true
  | pinf, _ => false

/-- IEEE-754 `≤` comparison: false whenever either operand is NaN. -/
def fle : F32 → F32 → Bool
  | nan, _ => false
  | _, nan => false
  | ninf, _ => true
  | fin _, ninf => false
  | fin a, fin b => decide (a ≤ b)
  | fin _, pinf => true
  | pinf, pinf => true
  | pinf, _ => false

/-- IEEE-754 `>` comparison (`a > b` is `b < a`). -/
def fgt (a b : F32) : Bool := flt b a

/-- Rust `f32::min`: if exactly one argument is NaN the other is returned,
otherwise the smaller of the two. -/
def fmin (a b : F32) : F32 :=
  if a.isNan then b else if b.isNan then a else if flt b a then b else a

/-- Rust `f32::max`: if exactly one argument is NaN the other is returned,
otherwise the larger of the two. -/
def fmax (a b : F32) : F32 :=
  if a.isNan then b else if b.isNan then a else if flt a b then b else a

/-- IEEE-754 negation. -/
def fneg : F32 → F32
  | nan => nan
  | ninf => pinf
  | fin q => fin (-q)
  | pinf => ninf

/-- IEEE-754 addition (exact on finite values): `∞ + (-∞) = NaN`. -/
def fadd : F32 → F32 → F32
  | nan, _ => nan
  | _, nan => nan
  | pinf, ninf => nan
  | ninf, pinf => nan
  | pinf, _ => pinf
  | ninf, _ => ninf
  | fin _, pinf => pinf
  | fin _, ninf => ninf
  | fin a, fin b => fin (a + b)

/-- IEEE-754 subtraction, `a - b = a + (-b)`. -/
def fsub (a b : F32) : F32 := fadd a (fneg b)

/-- IEEE-754 multiplication (exact on finite values): `0 * ±∞ = NaN`. -/
def fmul : F32 → F32 → F32
  | nan, _ => nan
  | _, nan => nan
  | pinf, pinf => pinf
  | pinf, ninf => ninf
  | ninf, pinf => ninf
  | ninf, ninf => pinf
  | pinf, fin q => if 0 < q then pinf else if q < 0 then ninf else nan
  | ninf, fin q => if 0 < q then ninf else if q < 0 then pinf else nan
  | fin q, pinf => if 0 < q then pinf else if q < 0 then ninf else nan
  | fin q, ninf => if 0 < q then ninf else if q < 0 then pinf else nan
  | fin a, fin b => fin (a * b)

/-- IEEE-754 division (exact on finite values): `x / 0` is a signed infinity
for `x ≠ 0`, `0 / 0 = NaN`, `∞ / ∞ = NaN`, `x / ±∞ = 0` for finite `x`.
The model has a single zero, which behaves as IEEE `+0.0`. -/
def fdiv : F32 → F32 → F32
  | nan, _ => nan
  | _, nan => nan
  | pinf, pinf => nan
  | pinf, ninf => nan
  | ninf, pinf => nan
  | ninf, ninf => nan
  | pinf, fin q => if 0 ≤ q then pinf else ninf
  | ninf, fin q => if 0 ≤ q then ninf else pinf
  | fin _, pinf => fin 0
  | fin _, ninf => fin 0
  | fin a, fin b =>
      if b = 0 then (if a = 0 then nan else if 0 < a then pinf else ninf)
      else fin (a / b)

end F32

/-- Modelled from the spec: the 3-component vector type of
`src/linalg/vector.rs` (absent from the snapshot); the spec only requires
componentwise point/vector arithmetic and per-axis access. -/
structure Vec3 where
  x : F32
  y : F32
  z : F32
deriving DecidableEq, Repr

namespace Vec3

/-- Model of `Vector::broadcast`: all three components equal. -/
def broadcast (q : F32) : Vec3 := ⟨q, q, q⟩

/-- Componentwise vector subtraction (used for `self.max - self.min`). -/
def sub (a b : Vec3) : Vec3 := ⟨F32.fsub a.x b.x, F32.fsub a.y b.y, F32.fsub a.z b.z⟩

/-- All three components are non-NaN. -/
def noNan (v : Vec3) : Prop :=
  v.x.isNan = false ∧ v.y.isNan = false ∧ v.z.isNan = false

end Vec3

/-- Modelled from the spec: the `RayT` abstraction of `src/linalg/ray.rs`
(absent from the snapshot) exposes an origin, a direction, and the valid
parameter interval bounds `t_min`/`t_max`. -/
structure Ray where
  origin : Vec3
  dir : Vec3
  t_min : F32
  t_max : F32
deriving DecidableEq, Repr

/-- Model of `Axis` from `src/linalg/mod.rs`: one of the three spatial axes. -/
inductive Axis where
  | X : Axis
  | Y : Axis
  | Z : Axis
deriving DecidableEq, Repr

/-- Position of an axis in the `X, Y, Z` order. -/
def axIdx : Axis → ℕ
  | .X => 0
  | .Y => 1
  | .Z => 2

namespace linalg

/-- Model of `linalg::lerp` from `src/linalg/mod.rs`:
`lerp(t, a, b) = a * (1 - t) + b * t`. -/
def lerp (t a b : F32) : F32 :=
  F32.fadd (F32.fmul a (F32.fsub (F32.fin 1) t)) (F32.fmul b t)

end linalg

/-- Model of `BBox` from `src/bbox.rs`: a box between the `min` and `max` points. -/
structure BBox where
  min : Vec3
  max : Vec3
deriving DecidableEq, Repr

namespace BBox

/-- Model of `BBox::new`: the degenerate (empty) box, `min = +∞`, `max = -∞`. -/
def new : BBox :=
  { min := Vec3.broadcast F32.pinf, max := Vec3.broadcast F32.ninf }

/-- Model of `BBox::singular`: a box containing only the passed point. -/
def singular (p : Vec3) : BBox := { min := p, max := p }

/-- Model of `BBox::span`: a box with caller-supplied corners (no validation). -/
def span (lo hi : Vec3) : BBox := { min := lo, max := hi }

/-- Model of `BBox::box_union`: componentwise min of mins and max of maxes. -/
def box_union (s b : BBox) : BBox :=
  { min := ⟨F32.fmin s.min.x b.min.x, F32.fmin s.min.y b.min.y, F32.fmin s.min.z b.min.z⟩,
    max := ⟨F32.fmax s.max.x b.max.x, F32.fmax s.max.y b.max.y, F32.fmax s.max.z b.max.z⟩ }

/-- Model of `BBox::point_union`: expand the box to contain the passed point. -/
def point_union (s : BBox) (p : Vec3) : BBox :=
  { min := ⟨F32.fmin s.min.x p.x, F32.fmin s.min.y p.y, F32.fmin s.min.z p.z⟩,
    max := ⟨F32.fmax s.max.x p.x, F32.fmax s.max.y p.y, F32.fmax s.max.z p.z⟩ }

/-- Model of `BBox::max_extent`: the axis along which the box is longest,
decided by the strict comparisons of the source. -/
def max_extent (s : BBox) : Axis :=
  let d := Vec3.sub s.max s.min
  if F32.fgt d.x d.y && F32.fgt d.x d.z then Axis.X
  else if F32.fgt d.y d.z then Axis.Y
  else Axis.Z

/-- Per-axis component of `self.max - self.min`, the quantity `max_extent`
compares. -/
def extent (s : BBox) : Axis → F32
  | .X => (Vec3.sub s.max s.min).x
  | .Y => (Vec3.sub s.max s.min).y
  | .Z => (Vec3.sub s.max s.min).z

/-- Model of `BBox::lerp`: the point in the box at some t value along each axis. -/
def lerp (s : BBox) (tx ty tz : F32) : Vec3 :=
  ⟨linalg.lerp tx s.min.x s.max.x, linalg.lerp ty s.min.y s.max.y,
    linalg.lerp tz s.min.z s.max.z⟩

/-- Model of `BBox::surface_area`: `2 * (d.x*d.y + d.x*d.z + d.y*d.z)` with
`d = max - min`. -/
def surface_area (s : BBox) : F32 :=
  let d := Vec3.sub s.max s.min
  F32.fmul (F32.fin 2)
    (F32.fadd (F32.fadd (F32.fmul d.x d.y) (F32.fmul d.x d.z)) (F32.fmul d.y d.z))

/-- Model of `Index<usize> for BBox`: `0 = min`, `1 = max`; every other index hits
the `panic!` branch, modelled as `none`. -/
def index (s : BBox) (i : ℕ) : Option Vec3 :=
  match i with
  | 0 => some s.min
  | 1 => some s.max
  | _ => none

/-- Model of `IndexMut<usize> for BBox`, modelled as a store through the returned
mutable reference: writing `v` at index `0` replaces `min`, at `1` replaces
`max`; every other index hits the `panic!` branch, modelled as `none`. -/
def index_mut (s : BBox) (i : ℕ) (v : Vec3) : Option BBox :=
  match i with
  | 0 => some { s with min := v }
  | 1 => some { s with max := v }
  | _ => none

end BBox

/-- Rust `usize` subtraction `a - b`, which panics (in debug builds) or wraps
into an out-of-range index (in release builds) on underflow; both outcomes
abort `fast_intersect`, modelled as `none`. -/
def checked_sub (a b : ℕ) : Option ℕ :=
  if b ≤ a then some (a - b) else none

namespace BBox

/-- Model of `BBox::fast_intersect`: the optimized ray-slab test of `src/bbox.rs`,
taking the precomputed inverse direction `inv_dir` and the per-axis
negative-direction flags `neg_dir`.  Corner accesses go through `index`
(which models the panicking `Index` impl), so the result is `none` exactly
when the Rust code panics. -/
def fast_intersect (s : BBox) (r : Ray) (inv_dir : Vec3) (neg_dir : ℕ × ℕ × ℕ) :
    Option Bool :=
  let o := r.origin
  (s.index neg_dir.1).bind fun nx =>
  (checked_sub 1 neg_dir.1).bind fun jx =>
  (s.index jx).bind fun fx =>
  (s.index neg_dir.2.1).bind fun ny =>
  (checked_sub 1 neg_dir.2.1).bind fun jy =>
  (s.index jy).bind fun fy =>
  let tmin := F32.fmul (F32.fsub nx.x o.x) inv_dir.x
  let tmax := F32.fmul (F32.fsub fx.x o.x) inv_dir.x
  let tymin := F32.fmul (F32.fsub ny.y o.y) inv_dir.y
  let tymax := F32.fmul (F32.fsub fy.y o.y) inv_dir.y
  if F32.fgt tmin tymax || F32.fgt tymin tmax then some false
  else
    let tmin1 := if F32.fgt tymin tmin then tymin else tmin
    let tmax1 := if F32.flt tymax tmax then tymax else tmax
    (s.index neg_dir.2.2).bind fun nz =>
    (checked_sub 1 neg_dir.2.2).bind fun jz =>
    (s.index jz).bind fun fz =>
    let tzmin := F32.fmul (F32.fsub nz.z o.z) inv_dir.z
    let tzmax := F32.fmul (F32.fsub fz.z o.z) inv_dir.z
    if F32.fgt tmin1 tzmax || F32.fgt tzmin tmax1 then some false
    else
      let tmin2 := if F32.fgt tzmin tmin1 then tzmin else tmin1
      let tmax2 := if F32.flt tzmax tmax1 then tzmax else tmax1
      some (F32.flt tmin2 r.t_max && F32.fgt tmax2 r.t_min)

end BBox

/-- The componentwise reciprocal `1 / d` of a direction component. -/
def recip (d : F32) : F32 := F32.fdiv (F32.fin 1) d

/-- The precomputed inverse direction of a ray: componentwise reciprocal. -/
def invDirOf (d : Vec3) : Vec3 := ⟨recip d.x, recip d.y, recip d.z⟩

/-- The precomputed negative-direction flags of a ray: `1` if the direction
component is negative (`< 0`), `0` otherwise. -/
def negDirOf (d : Vec3) : ℕ × ℕ × ℕ :=
  (if F32.flt d.x (F32.fin 0) then 1 else 0,
   if F32.flt d.y (F32.fin 0) then 1 else 0,
   if F32.flt d.z (F32.fin 0) then 1 else 0)

namespace BBox

/-- Version of `fast_intersect` with the panicking corner lookups resolved by the
direction sign: the near corner on an axis is `max` when the direction
component is negative, `min` otherwise (and symmetrically for the far
corner).  Pure helper used to relate `fast_intersect` to the brute-force
slab test. -/
def fast_sel (s : BBox) (r : Ray) (inv_dir d : Vec3) : Bool :=
  let o := r.origin
  let tmin := F32.fmul (F32.fsub (if F32.flt d.x (F32.fin 0) then s.max else s.min).x o.x) inv_dir.x
  let tmax := F32.fmul (F32.fsub (if F32.flt d.x (F32.fin 0) then s.min else s.max).x o.x) inv_dir.x
  let tymin := F32.fmul (F32.fsub (if F32.flt d.y (F32.fin 0) then s.max else s.min).y o.y) inv_dir.y
  let tymax := F32.fmul (F32.fsub (if F32.flt d.y (F32.fin 0) then s.min else s.max).y o.y) inv_dir.y
  if F32.fgt tmin tymax || F32.fgt tymin tmax then false
  else
    let tmin1 := if F32.fgt tymin tmin then tymin else tmin
    let tmax1 := if F32.flt tymax tmax then tymax else tmax
    let tzmin := F32.fmul (F32.fsub (if F32.flt d.z (F32.fin 0) then s.max else s.min).z o.z) inv_dir.z
    let tzmax := F32.fmul (F32.fsub (if F32.flt d.z (F32.fin 0) then s.min else s.max).z o.z) inv_dir.z
    if F32.fgt tmin1 tzmax || F32.fgt tzmin tmax1 then false
    else
      let tmin2 := if F32.fgt tzmin tmin1 then tzmin else tmin1
      let tmax2 := if F32.flt tzmax tmax1 then tzmax else tmax1
      F32.flt tmin2 r.t_max && F32.fgt tmax2 r.t_min

/-- Modelled from the spec: the brute-force per-axis slab test with no
precomputed inverse direction.  On each axis the two plane parameters are
computed by division and ordered with `f32::min`/`f32::max`; the running
interval is then narrowed across X, Y, Z with the same early-out structure,
and the result is a hit iff the narrowed interval overlaps the ray's valid
interval. -/
def slab_intersect (s : BBox) (r : Ray) (d : Vec3) : Bool :=
  let o := r.origin
  let tmin := F32.fmin (F32.fdiv (F32.fsub s.min.x o.x) d.x) (F32.fdiv (F32.fsub s.max.x o.x) d.x)
  let tmax := F32.fmax (F32.fdiv (F32.fsub s.min.x o.x) d.x) (F32.fdiv (F32.fsub s.max.x o.x) d.x)
  let tymin := F32.fmin (F32.fdiv (F32.fsub s.min.y o.y) d.y) (F32.fdiv (F32.fsub s.max.y o.y) d.y)
  let tymax := F32.fmax (F32.fdiv (F32.fsub s.min.y o.y) d.y) (F32.fdiv (F32.fsub s.max.y o.y) d.y)
  if F32.fgt tmin tymax || F32.fgt tymin tmax then false
  else
    let tmin1 := if F32.fgt tymin tmin then tymin else tmin
    let tmax1 := if F32.flt tymax tmax then tymax else tmax
    let tzmin := F32.fmin (F32.fdiv (F32.fsub s.min.z o.z) d.z) (F32.fdiv (F32.fsub s.max.z o.z) d.z)
    let tzmax := F32.fmax (F32.fdiv (F32.fsub s.min.z o.z) d.z) (F32.fdiv (F32.fsub s.max.z o.z) d.z)
    if F32.fgt tmin1 tzmax || F32.fgt tzmin tmax1 then false
    else
      let tmin2 := if F32.fgt tzmin tmin1 then tzmin else tmin1
      let tmax2 := if F32.flt tzmax tmax1 then tzmax else tmax1
      F32.flt tmin2 r.t_max && F32.fgt tmax2 r.t_min

end BBox

/-- The boxes constructible solely by `box_union` and `point_union`
operations starting from the empty box `BBox::new()`, with finite input
points. -/
inductive Reachable : BBox → Prop where
  | base : Reachable BBox.new
  | pointU (s : BBox) (a b c : ℚ) : Reachable s →
      Reachable (s.point_union ⟨F32.fin a, F32.fin b, F32.fin c⟩)
  | boxU (s t : BBox) : Reachable s → Reachable t → Reachable (s.box_union t)

/-- A box with finite corners satisfying `min ≤ max` on every axis. -/
def FinBox (s : BBox) : Prop :=
  ∃ a b c d e f : ℚ,
    s = BBox.span ⟨F32.fin a, F32.fin b, F32.fin c⟩ ⟨F32.fin d, F32.fin e, F32.fin f⟩ ∧
      a ≤ d ∧ b ≤ e ∧ c ≤ f

/-- Model of `partition` from `src/partition.rs`, one outer loop step at a time.
The mutable sequence seen through the double-ended iterator is
`pre ++ cur ++ post`: `pre` holds the elements already consumed by the front
scan, `post` those already consumed by the back scan, and `cur` the range the
iterator still yields.  The front scan skips the leading `pred`-true elements
(counting them into `split`), the back scan skips the trailing `pred`-false
elements; when both scans find a mismatch the two elements are swapped and
the loop repeats, otherwise the loop exits.  Returns the reordered sequence
together with the returned split index. -/
def partitionGo (p : α → Bool) (pre cur post : List α) (split : ℕ) : List α × ℕ :=
  match hf : cur.dropWhile p with
  | [] => (pre ++ cur ++ post, split + (cur.takeWhile p).length)
  | f :: rest =>
    match hb : rest.reverse.dropWhile (fun x => !p x) with
    | [] => (pre ++ cur ++ post, split + (cur.takeWhile p).length)
    | b :: midrev =>
      partitionGo p (pre ++ cur.takeWhile p ++ [b]) midrev.reverse
        (f :: ((rest.reverse.takeWhile (fun x => !p x)).reverse ++ post))
        (split + (cur.takeWhile p).length + 1)
termination_by cur.length
decreasing_by
  have h1 : (cur.dropWhile p).length ≤ cur.length :=
    (List.dropWhile_sublist p).length_le
  have h2 : (rest.reverse.dropWhile (fun x => !p x)).length ≤ rest.reverse.length :=
    (List.dropWhile_sublist (fun x => !p x)).length_le
  rw [hf] at h1
  rw [hb] at h2
  simp only [List.length_cons, List.length_reverse] at h1 h2 ⊢
  omega

/-- Model of `partition` from `src/partition.rs`: reorders the sequence so that all
`pred`-true elements precede all `pred`-false elements, returning the
reordered sequence and the index of the first element of the false group. -/
def partition (p : α → Bool) (l : List α) : List α × ℕ :=
  partitionGo p [] l [] 0

/-- Fuel-indexed variant of `partitionGo`, recursing structurally on an
explicit bound on the number of outer loop iterations; `none` means the
fuel was exhausted before the loop exited. -/
def partitionFuel (p : α → Bool) : ℕ → List α → List α → List α → ℕ → Option (List α × ℕ)
  | 0, _, _, _, _ => none
  | fuel + 1, pre, cur, post, split =>
    match cur.dropWhile p with
    | [] => some (pre ++ cur ++ post, split + (cur.takeWhile p).length)
    | f :: rest =>
      match rest.reverse.dropWhile (fun x => !p x) with
      | [] => some (pre ++ cur ++ post, split + (cur.takeWhile p).length)
      | b :: midrev =>
        partitionFuel p fuel (pre ++ cur.takeWhile p ++ [b]) midrev.reverse
          (f :: ((rest.reverse.takeWhile (fun x => !p x)).reverse ++ post))
          (split + (cur.takeWhile p).length + 1)

/-! ## Helper lemmas about the float model -/

theorem F32.fle_refl {a : F32} (ha : a.isNan = false) : F32.fle a a = true := by
  cases a <;> simp_all [F32.fle, F32.isNan]

theorem F32.fle_of_flt {a b : F32} (h : F32.flt a b = true) : F32.fle a b = true := by
  cases a <;> cases b <;> simp_all [F32.flt, F32.fle] <;> exact le_of_lt h

theorem F32.fle_of_not_flt {a b : F32} (ha : a.isNan = false) (hb : b.isNan = false)
    (h : F32.flt a b = false) : F32.fle b a = true := by
  cases a <;> cases b <;> simp_all [F32.flt, F32.fle, F32.isNan]

theorem F32.fle_trans {a b c : F32} (h1 : F32.fle a b = true) (h2 : F32.fle b c = true) :
    F32.fle a c = true := by
  cases a <;> cases b <;> cases c <;> simp_all [F32.fle] <;> exact le_trans h1 h2

theorem F32.fmin_comm (a b : F32) : F32.fmin a b = F32.fmin b a := by
  cases a <;> cases b <;> simp_all [F32.fmin, F32.isNan, F32.flt]
  rename_i qa qb
  rcases lt_trichotomy qa qb with h | h | h
  · rw [if_neg (asymm h), if_pos h]
  · subst h; rfl
  · rw [if_pos h, if_neg (asymm h)]

theorem F32.fmax_comm (a b : F32) : F32.fmax a b = F32.fmax b a := by
  cases a <;> cases b <;> simp_all [F32.fmax, F32.isNan, F32.flt]
  rename_i qa qb
  rcases lt_trichotomy qa qb with h | h | h
  · rw [if_pos h, if_neg (asymm h)]
  · subst h; rfl
  · rw [if_neg (asymm h), if_pos h]

theorem F32.fmin_self (a : F32) : F32.fmin a a = a := by
  cases a <;> simp [F32.fmin, F32.isNan, F32.flt]

theorem F32.fmax_self (a : F32) : F32.fmax a a = a := by
  cases a <;> simp [F32.fmax, F32.isNan, F32.flt]

theorem F32.fmin_pinf {a : F32} (ha : a.isNan = false) : F32.fmin a F32.pinf = a := by
  cases a <;> simp_all [F32.fmin, F32.isNan, F32.flt]

theorem F32.fmax_ninf {a : F32} (ha : a.isNan = false) : F32.fmax a F32.ninf = a := by
  cases a <;> simp_all [F32.fmax, F32.isNan, F32.flt]

theorem F32.fmin_of_fle {a b : F32} (h : F32.fle a b = true) : F32.fmin a b = a := by
  cases a <;> cases b <;> simp_all [F32.fle, F32.fmin, F32.isNan, F32.flt]

theorem F32.fmax_of_fle {a b : F32} (h : F32.fle a b = true) : F32.fmax b a = b := by
  cases a <;> cases b <;> simp_all [F32.fle, F32.fmax, F32.isNan, F32.flt]

/-! ## C4: indexed corner access -/

/-- C4: indexing a bounding box's corner returns the min corner for index 0
and the max corner for index 1, and for every index `≥ 2` both the read
accessor (`Index`) and the mutable accessor (`IndexMut`) hit the fatal
`panic!` branch (modelled as `none`) instead of clamping. -/
theorem C4_index_contract (s : BBox) (i : ℕ) (v : Vec3) :
    s.index 0 = some s.min ∧ s.index 1 = some s.max ∧
      (2 ≤ i → s.index i = none) ∧
      s.index_mut 0 v = some (BBox.span v s.max) ∧
      s.index_mut 1 v = some (BBox.span s.min v) ∧
      (2 ≤ i → s.index_mut i v = none) := by
  refine ⟨rfl, rfl, ?_, rfl, rfl, ?_⟩ <;> intro hi
  · match i, hi with
    | n + 2, _ => rfl
  · match i, hi with
    | n + 2, _ => rfl

/-- Witness for C4 at concrete inputs. -/
theorem C4_index_contract_witness :
    BBox.new.index 0 = some BBox.new.min ∧ BBox.new.index 5 = none ∧
      BBox.new.index_mut 5 (Vec3.broadcast (F32.fin 0)) = none := by
  have h := C4_index_contract BBox.new 5 (Vec3.broadcast (F32.fin 0))
  exact ⟨h.1, h.2.2.1 (by decide), h.2.2.2.2.2 (by decide)⟩

/-! ## C5: algebra of `box_union` -/

/-- C5 counterexample: for a box with a NaN component, `box_union` with the
empty box is **not** the identity — Rust's `f32::min(NaN, +∞)` returns `+∞`,
so the NaN corner component is replaced.  This refutes the claim's
`A.box_union(empty) == A` conjunct as stated for every box `A`. -/
theorem C5_union_counterexample :
    ¬ ((BBox.span ⟨F32.nan, F32.fin 0, F32.fin 0⟩ ⟨F32.fin 1, F32.fin 1, F32.fin 1⟩).box_union
          BBox.new =
        BBox.span ⟨F32.nan, F32.fin 0, F32.fin 0⟩ ⟨F32.fin 1, F32.fin 1, F32.fin 1⟩) := by
  intro h
  have hx : F32.fmin F32.nan F32.pinf = F32.nan := congrArg (fun s => s.min.x) h
  simp [F32.fmin, F32.isNan] at hx

/-- C5 (amended): the operation `box_union` is commutative and idempotent for all boxes,
and the empty box `BBox::new()` is a right identity for every box whose
corner components are not NaN. -/
theorem C5_union_algebra (A B : BBox) :
    A.box_union B = B.box_union A ∧ A.box_union A = A ∧
      (A.min.noNan → A.max.noNan → A.box_union BBox.new = A) := by
  obtain ⟨⟨a1, a2, a3⟩, ⟨a4, a5, a6⟩⟩ := A
  obtain ⟨⟨b1, b2, b3⟩, ⟨b4, b5, b6⟩⟩ := B
  refine ⟨?_, ?_, ?_⟩
  · simp only [BBox.box_union, BBox.mk.injEq, Vec3.mk.injEq]
    exact ⟨⟨F32.fmin_comm _ _, F32.fmin_comm _ _, F32.fmin_comm _ _⟩,
      F32.fmax_comm _ _, F32.fmax_comm _ _, F32.fmax_comm _ _⟩
  · simp only [BBox.box_union, BBox.mk.injEq, Vec3.mk.injEq]
    exact ⟨⟨F32.fmin_self _, F32.fmin_self _, F32.fmin_self _⟩,
      F32.fmax_self _, F32.fmax_self _, F32.fmax_self _⟩
  · rintro ⟨h1, h2, h3⟩ ⟨h4, h5, h6⟩
    simp only [BBox.box_union, BBox.new, Vec3.broadcast, BBox.mk.injEq, Vec3.mk.injEq]
    exact ⟨⟨F32.fmin_pinf h1, F32.fmin_pinf h2, F32.fmin_pinf h3⟩,
      F32.fmax_ninf h4, F32.fmax_ninf h5, F32.fmax_ninf h6⟩

/-- Witness for C5 at concrete inputs (the identity part needs the
non-NaN hypotheses). -/
theorem C5_union_algebra_witness :
    (BBox.span ⟨F32.fin 0, F32.fin 0, F32.fin 0⟩ ⟨F32.fin 1, F32.fin 2, F32.fin 3⟩).box_union
        BBox.new =
      BBox.span ⟨F32.fin 0, F32.fin 0, F32.fin 0⟩ ⟨F32.fin 1, F32.fin 2, F32.fin 3⟩ := by
  have h := C5_union_algebra
    (BBox.span ⟨F32.fin 0, F32.fin 0, F32.fin 0⟩ ⟨F32.fin 1, F32.fin 2, F32.fin 3⟩)
    BBox.new
  exact h.2.2 (by exact ⟨rfl, rfl, rfl⟩) (by exact ⟨rfl, rfl, rfl⟩)

/-! ## C6: `point_union` absorbs contained points -/

/-- C6: for every box and every point `p` with
`min.axis ≤ p.axis ≤ max.axis` (in IEEE `≤`) on each axis,
`point_union` leaves the box unchanged. -/
theorem C6_point_union_absorb (A : BBox) (p : Vec3)
    (hx1 : F32.fle A.min.x p.x = true) (hx2 : F32.fle p.x A.max.x = true)
    (hy1 : F32.fle A.min.y p.y = true) (hy2 : F32.fle p.y A.max.y = true)
    (hz1 : F32.fle A.min.z p.z = true) (hz2 : F32.fle p.z A.max.z = true) :
    A.point_union p = A := by
  obtain ⟨⟨a1, a2, a3⟩, ⟨a4, a5, a6⟩⟩ := A
  simp only [BBox.point_union, BBox.mk.injEq, Vec3.mk.injEq]
  exact ⟨⟨F32.fmin_of_fle hx1, F32.fmin_of_fle hy1, F32.fmin_of_fle hz1⟩,
    F32.fmax_of_fle hx2, F32.fmax_of_fle hy2, F32.fmax_of_fle hz2⟩

/-- Witness for C6 at concrete inputs. -/
theorem C6_point_union_absorb_witness :
    (BBox.span ⟨F32.fin 0, F32.fin 0, F32.fin 0⟩
          ⟨F32.fin 2, F32.fin 2, F32.fin 2⟩).point_union
        ⟨F32.fin 1, F32.fin 0, F32.fin 2⟩ =
      BBox.span ⟨F32.fin 0, F32.fin 0, F32.fin 0⟩ ⟨F32.fin 2, F32.fin 2, F32.fin 2⟩ :=
  C6_point_union_absorb _ _ (by decide) (by decide) (by decide) (by decide) (by decide)
    (by decide)

/-! ## C8: `lerp` -/

/-- C8 counterexample: on the empty box (`min = +∞`, `max = -∞`),
`lerp` with parameter 0 does **not** return the min component: the product
`max * t = -∞ * 0` is NaN, so the result is NaN.  This refutes the claim as
stated for *every* bounding box. -/
theorem C8_lerp_counterexample :
    (BBox.new.lerp (F32.fin 0) (F32.fin 0) (F32.fin 0)).x ≠ BBox.new.min.x := by
  norm_num [BBox.new, BBox.lerp, linalg.lerp, Vec3.broadcast, F32.fsub, F32.fadd, F32.fneg,
    F32.fmul]
  decide

/-- C8 (amended): for every bounding box with finite corners, `lerp` is
per-axis linear interpolation: parameter 0 yields the min component,
parameter 1 yields the max component, and for every parameter (also outside
`[0,1]`, unclamped) the result is the exact affine formula
`min * (1 - t) + max * t`. -/
theorem C8_lerp_linear (a b c d e f : ℚ) :
    (BBox.span ⟨F32.fin a, F32.fin b, F32.fin c⟩
          ⟨F32.fin d, F32.fin e, F32.fin f⟩).lerp (F32.fin 0) (F32.fin 0) (F32.fin 0) =
        ⟨F32.fin a, F32.fin b, F32.fin c⟩ ∧
      (BBox.span ⟨F32.fin a, F32.fin b, F32.fin c⟩
          ⟨F32.fin d, F32.fin e, F32.fin f⟩).lerp (F32.fin 1) (F32.fin 1) (F32.fin 1) =
        ⟨F32.fin d, F32.fin e, F32.fin f⟩ ∧
      ∀ tx ty tz : ℚ,
        (BBox.span ⟨F32.fin a, F32.fin b, F32.fin c⟩
            ⟨F32.fin d, F32.fin e, F32.fin f⟩).lerp (F32.fin tx) (F32.fin ty) (F32.fin tz) =
          ⟨F32.fin (a * (1 - tx) + d * tx), F32.fin (b * (1 - ty) + e * ty),
            F32.fin (c * (1 - tz) + f * tz)⟩ := by
  have key : ∀ tx ty tz : ℚ,
      (BBox.span ⟨F32.fin a, F32.fin b, F32.fin c⟩
          ⟨F32.fin d, F32.fin e, F32.fin f⟩).lerp (F32.fin tx) (F32.fin ty) (F32.fin tz) =
        ⟨F32.fin (a * (1 - tx) + d * tx), F32.fin (b * (1 - ty) + e * ty),
          F32.fin (c * (1 - tz) + f * tz)⟩ := by
    intro tx ty tz
    simp only [BBox.lerp, BBox.span, linalg.lerp, F32.fsub, F32.fadd, F32.fneg, F32.fmul,
      Vec3.mk.injEq, F32.fin.injEq]
    refine ⟨by ring, by ring, by ring⟩
  refine ⟨?_, ?_, key⟩
  · rw [key 0 0 0]; norm_num
  · rw [key 1 1 1]; norm_num

/-! ## C2: `max_extent` -/

/-- C2 counterexample: on the unit cube all three extents are exactly equal,
yet `max_extent` returns `Z`, not `X` as the claim states — the claim's
"on exact ties prefer the earlier axis" contradicts the code's strict
comparisons. -/
theorem C2_max_extent_counterexample :
    (BBox.span ⟨F32.fin 0, F32.fin 0, F32.fin 0⟩
          ⟨F32.fin 1, F32.fin 1, F32.fin 1⟩).extent Axis.X =
        (BBox.span ⟨F32.fin 0, F32.fin 0, F32.fin 0⟩
          ⟨F32.fin 1, F32.fin 1, F32.fin 1⟩).extent Axis.Y ∧
      (BBox.span ⟨F32.fin 0, F32.fin 0, F32.fin 0⟩
          ⟨F32.fin 1, F32.fin 1, F32.fin 1⟩).extent Axis.Y =
        (BBox.span ⟨F32.fin 0, F32.fin 0, F32.fin 0⟩
          ⟨F32.fin 1, F32.fin 1, F32.fin 1⟩).extent Axis.Z ∧
      (BBox.span ⟨F32.fin 0, F32.fin 0, F32.fin 0⟩
          ⟨F32.fin 1, F32.fin 1, F32.fin 1⟩).max_extent ≠ Axis.X := by
  refine ⟨by norm_num [BBox.extent, BBox.span, Vec3.sub, F32.fsub, F32.fadd, F32.fneg],
    by norm_num [BBox.extent, BBox.span, Vec3.sub, F32.fsub, F32.fadd, F32.fneg], ?_⟩
  have h : (BBox.span ⟨F32.fin 0, F32.fin 0, F32.fin 0⟩
      ⟨F32.fin 1, F32.fin 1, F32.fin 1⟩).max_extent = Axis.Z := by
    norm_num [BBox.max_extent, BBox.span, Vec3.sub, F32.fsub, F32.fadd, F32.fneg, F32.fgt,
      F32.flt]
  rw [h]
  decide

/-- C2 (amended): whenever the three extents `max - min` are not NaN,
`max_extent` returns an axis of maximal extent, and every axis *later* in
the X, Y, Z order than the returned one has strictly smaller extent — that
is, on exact ties the **later** axis is preferred (in particular, when all
three extents are equal the result is `Z`). -/
theorem C2_max_extent_amended (B : BBox)
    (hx : (B.extent Axis.X).isNan = false) (hy : (B.extent Axis.Y).isNan = false)
    (hz : (B.extent Axis.Z).isNan = false) :
    (∀ a : Axis, F32.fle (B.extent a) (B.extent B.max_extent) = true) ∧
      ∀ a : Axis, axIdx B.max_extent < axIdx a →
        F32.flt (B.extent a) (B.extent B.max_extent) = true := by
  have hde : B.max_extent =
      (if F32.fgt (B.extent Axis.X) (B.extent Axis.Y) &&
            F32.fgt (B.extent Axis.X) (B.extent Axis.Z) then Axis.X
        else if F32.fgt (B.extent Axis.Y) (B.extent Axis.Z) then Axis.Y else Axis.Z) := rfl
  by_cases h1 : (F32.fgt (B.extent Axis.X) (B.extent Axis.Y) &&
      F32.fgt (B.extent Axis.X) (B.extent Axis.Z)) = true
  · obtain ⟨hxy, hxz⟩ := Bool.and_eq_true_iff.mp h1
    have hme : B.max_extent = Axis.X := by rw [hde, if_pos h1]
    rw [hme]
    constructor
    · intro a
      cases a
      · exact F32.fle_refl hx
      · exact F32.fle_of_flt hxy
      · exact F32.fle_of_flt hxz
    · intro a ha
      cases a
      · simp [axIdx] at ha
      · exact hxy
      · exact hxz
  · have h1f : (F32.fgt (B.extent Axis.X) (B.extent Axis.Y) &&
        F32.fgt (B.extent Axis.X) (B.extent Axis.Z)) = false := by
      simpa using h1
    by_cases h2 : F32.fgt (B.extent Axis.Y) (B.extent Axis.Z) = true
    · have hme : B.max_extent = Axis.Y := by rw [hde, if_neg h1, if_pos h2]
      rw [hme]
      have hxley : F32.fle (B.extent Axis.X) (B.extent Axis.Y) = true := by
        rcases Bool.and_eq_false_iff.mp h1f with h | h
        · exact F32.fle_of_not_flt hy hx h
        · exact F32.fle_trans (F32.fle_of_not_flt hz hx h) (F32.fle_of_flt h2)
      constructor
      · intro a
        cases a
        · exact hxley
        · exact F32.fle_refl hy
        · exact F32.fle_of_flt h2
      · intro a ha
        cases a
        · simp [axIdx] at ha
        · simp [axIdx] at ha
        · exact h2
    · have h2f : F32.fgt (B.extent Axis.Y) (B.extent Axis.Z) = false := by simpa using h2
      have hme : B.max_extent = Axis.Z := by rw [hde, if_neg h1, if_neg h2]
      rw [hme]
      have hylez : F32.fle (B.extent Axis.Y) (B.extent Axis.Z) = true :=
        F32.fle_of_not_flt hz hy h2f
      have hxlez : F32.fle (B.extent Axis.X) (B.extent Axis.Z) = true := by
        rcases Bool.and_eq_false_iff.mp h1f with h | h
        · exact F32.fle_trans (F32.fle_of_not_flt hy hx h) hylez
        · exact F32.fle_of_not_flt hz hx h
      constructor
      · intro a
        cases a
        · exact hxlez
        · exact hylez
        · exact F32.fle_refl hz
      · intro a ha
        cases a <;> simp [axIdx] at ha

/-- Witness for C2 at a concrete box (extents 3, 2, 1, so the maximum is on
X and both later axes are strictly smaller). -/
theorem C2_max_extent_amended_witness :
    F32.fle
        ((BBox.span ⟨F32.fin 0, F32.fin 0, F32.fin 0⟩
            ⟨F32.fin 3, F32.fin 2, F32.fin 1⟩).extent Axis.Y)
        ((BBox.span ⟨F32.fin 0, F32.fin 0, F32.fin 0⟩
            ⟨F32.fin 3, F32.fin 2, F32.fin 1⟩).extent
          ((BBox.span ⟨F32.fin 0, F32.fin 0, F32.fin 0⟩
            ⟨F32.fin 3, F32.fin 2, F32.fin 1⟩).max_extent)) = true ∧
      F32.flt
        ((BBox.span ⟨F32.fin 0, F32.fin 0, F32.fin 0⟩
            ⟨F32.fin 3, F32.fin 2, F32.fin 1⟩).extent Axis.Z)
        ((BBox.span ⟨F32.fin 0, F32.fin 0, F32.fin 0⟩
            ⟨F32.fin 3, F32.fin 2, F32.fin 1⟩).extent
          ((BBox.span ⟨F32.fin 0, F32.fin 0, F32.fin 0⟩
            ⟨F32.fin 3, F32.fin 2, F32.fin 1⟩).max_extent)) = true := by
  have h := C2_max_extent_amended
    (BBox.span ⟨F32.fin 0, F32.fin 0, F32.fin 0⟩ ⟨F32.fin 3, F32.fin 2, F32.fin 1⟩)
    (by decide) (by decide) (by decide)
  have hme : (BBox.span ⟨F32.fin 0, F32.fin 0, F32.fin 0⟩
      ⟨F32.fin 3, F32.fin 2, F32.fin 1⟩).max_extent = Axis.X := by
    norm_num [BBox.max_extent, BBox.span, Vec3.sub, F32.fsub, F32.fadd, F32.fneg, F32.fgt,
      F32.flt]
  exact ⟨h.1 Axis.Y, h.2 Axis.Z (by rw [hme]; decide)⟩

/-! ## C7: non-negative surface area of reachable boxes -/

theorem F32.fmin_fin (a b : ℚ) : F32.fmin (F32.fin a) (F32.fin b) = F32.fin (min a b) := by
  simp only [F32.fmin, F32.isNan, F32.flt, Bool.false_eq_true, if_false, decide_eq_true_eq]
  rcases le_or_lt a b with h | h
  · rw [if_neg (not_lt.mpr h), min_eq_left h]
  · rw [if_pos h, min_eq_right h.le]

theorem F32.fmax_fin (a b : ℚ) : F32.fmax (F32.fin a) (F32.fin b) = F32.fin (max a b) := by
  simp only [F32.fmax, F32.isNan, F32.flt, Bool.false_eq_true, if_false, decide_eq_true_eq]
  rcases lt_trichotomy a b with h | h | h
  · rw [if_pos h, max_eq_right h.le]
  · subst h; simp
  · rw [if_neg (asymm h), max_eq_left h.le]

theorem Reachable.valid {s : BBox} (h : Reachable s) : s = BBox.new ∨ FinBox s := by
  induction h with
  | base => exact Or.inl rfl
  | pointU s a b c _ ih =>
    right
    rcases ih with rfl | ⟨a0, b0, c0, d0, e0, f0, rfl, h1, h2, h3⟩
    · refine ⟨a, b, c, a, b, c, ?_, le_refl a, le_refl b, le_refl c⟩
      simp [BBox.point_union, BBox.new, BBox.span, Vec3.broadcast, F32.fmin, F32.fmax,
        F32.isNan, F32.flt]
    · refine ⟨min a0 a, min b0 b, min c0 c, max d0 a, max e0 b, max f0 c, ?_, ?_, ?_, ?_⟩
      · simp [BBox.point_union, BBox.span, F32.fmin_fin, F32.fmax_fin]
      · exact le_trans (le_trans (min_le_left a0 a) h1) (le_max_left d0 a)
      · exact le_trans (le_trans (min_le_left b0 b) h2) (le_max_left e0 b)
      · exact le_trans (le_trans (min_le_left c0 c) h3) (le_max_left f0 c)
  | boxU s t _ _ ihs iht =>
    rcases ihs with rfl | ⟨a0, b0, c0, d0, e0, f0, rfl, h1, h2, h3⟩
    · rcases iht with rfl | ⟨a1, b1, c1, d1, e1, f1, rfl, h4, h5, h6⟩
      · left
        simp [BBox.box_union, BBox.new, Vec3.broadcast, F32.fmin, F32.fmax, F32.isNan, F32.flt]
      · right
        refine ⟨a1, b1, c1, d1, e1, f1, ?_, h4, h5, h6⟩
        simp [BBox.box_union, BBox.new, BBox.span, Vec3.broadcast, F32.fmin, F32.fmax,
          F32.isNan, F32.flt]
    · rcases iht with rfl | ⟨a1, b1, c1, d1, e1, f1, rfl, h4, h5, h6⟩
      · right
        refine ⟨a0, b0, c0, d0, e0, f0, ?_, h1, h2, h3⟩
        simp [BBox.box_union, BBox.new, BBox.span, Vec3.broadcast, F32.fmin, F32.fmax,
          F32.isNan, F32.flt]
      · right
        refine ⟨min a0 a1, min b0 b1, min c0 c1, max d0 d1, max e0 e1, max f0 f1, ?_, ?_, ?_, ?_⟩
        · simp [BBox.box_union, BBox.span, F32.fmin_fin, F32.fmax_fin]
        · exact le_trans (le_trans (min_le_left a0 a1) h1) (le_max_left d0 d1)
        · exact le_trans (le_trans (min_le_left b0 b1) h2) (le_max_left e0 e1)
        · exact le_trans (le_trans (min_le_left c0 c1) h3) (le_max_left f0 f1)

/-- C7: the function `surface_area` is non-negative (in IEEE `≤`) for every box built
solely from `box_union` and `point_union` operations starting from the
empty box `BBox::new()` with finite input points: such a box is either still
empty (surface area `+∞`) or has finite corners with `min ≤ max` per axis
(surface area an exact non-negative rational). -/
theorem C7_surface_area_nonneg (s : BBox) (h : Reachable s) :
    F32.fle (F32.fin 0) s.surface_area = true := by
  rcases h.valid with rfl | ⟨a, b, c, d, e, f, rfl, h1, h2, h3⟩
  · norm_num [BBox.surface_area, BBox.new, Vec3.broadcast, Vec3.sub, F32.fsub, F32.fadd,
      F32.fneg, F32.fmul, F32.fle]
  · simp only [BBox.surface_area, BBox.span, Vec3.sub, F32.fsub, F32.fadd, F32.fneg, F32.fmul,
      F32.fle, decide_eq_true_eq]
    have hu : (0:ℚ) ≤ d + -a := by linarith
    have hv : (0:ℚ) ≤ e + -b := by linarith
    have hw : (0:ℚ) ≤ f + -c := by linarith
    nlinarith [mul_nonneg hu hv, mul_nonneg hu hw, mul_nonneg hv hw]

/-- Witness for C7 on a concrete reachable box. -/
theorem C7_surface_area_nonneg_witness :
    F32.fle (F32.fin 0)
        ((BBox.new.point_union ⟨F32.fin 1, F32.fin 2, F32.fin 3⟩).surface_area) = true :=
  C7_surface_area_nonneg _ (Reachable.pointU BBox.new 1 2 3 Reachable.base)

/-! ## C10: totality and panic behaviour of `fast_intersect` -/

/-- C10: when every `neg_dir` entry is 0 or 1, `fast_intersect` never hits
the panicking corner-index branch and the `1 - neg_dir[axis]` index
computation never underflows, so the call returns a boolean (`isSome`);
and for a `neg_dir` entry outside `{0, 1}` (here 2) the call panics
(modelled as `none`). -/
theorem C10_fast_intersect_totality :
    (∀ (s : BBox) (r : Ray) (inv : Vec3) (nd : ℕ × ℕ × ℕ),
        nd.1 ≤ 1 → nd.2.1 ≤ 1 → nd.2.2 ≤ 1 →
          (s.fast_intersect r inv nd).isSome = true) ∧
      BBox.new.fast_intersect
          ⟨⟨F32.fin 0, F32.fin 0, F32.fin 0⟩, ⟨F32.fin 0, F32.fin 0, F32.fin 0⟩,
            F32.fin 0, F32.fin 0⟩
          (Vec3.broadcast (F32.fin 0)) (2, 0, 0) = none := by
  constructor
  · rintro s r inv ⟨n1, n2, n3⟩ h1 h2 h3
    simp only at h1 h2 h3
    interval_cases n1 <;> interval_cases n2 <;> interval_cases n3 <;>
      simp [BBox.fast_intersect, BBox.index, checked_sub, apply_ite Option.isSome]
  · rfl

/-- Witness for C10 at concrete inputs. -/
theorem C10_fast_intersect_totality_witness :
    ((BBox.span ⟨F32.fin 0, F32.fin 0, F32.fin 0⟩
          ⟨F32.fin 1, F32.fin 1, F32.fin 1⟩).fast_intersect
        ⟨⟨F32.fin 0, F32.fin 0, F32.fin 0⟩, ⟨F32.fin 0, F32.fin 0, F32.fin 0⟩,
          F32.fin 0, F32.fin 0⟩
        (Vec3.broadcast (F32.fin 1)) (0, 1, 0)).isSome = true :=
  C10_fast_intersect_totality.1 _ _ _ (0, 1, 0) (by decide) (by decide) (by decide)

/-! ## C3: `fast_intersect` versus the brute-force slab test -/

theorem BBox.index_ite (s : BBox) (c : Bool) :
    s.index (if c then 1 else 0) = some (if c then s.max else s.min) := by
  cases c <;> rfl

theorem checked_sub_ite (c : Bool) :
    checked_sub 1 (if c then 1 else 0) = some (if c then 0 else 1) := by
  cases c <;> rfl

theorem BBox.index_ite_flip (s : BBox) (c : Bool) :
    s.index (if c then 0 else 1) = some (if c then s.min else s.max) := by
  cases c <;> rfl

theorem ite_ite_some (c1 c2 : Prop) [Decidable c1] [Decidable c2] (x : Bool) :
    (if c1 then some false else if c2 then some false else some x) =
      some (if c1 then false else if c2 then false else x) := by
  split_ifs <;> rfl

/-- On any input, `fast_intersect` with the flags `negDirOf d` succeeds and
computes the pure corner-selecting test `fast_sel`. -/
theorem BBox.fast_intersect_negDir (s : BBox) (r : Ray) (inv d : Vec3) :
    s.fast_intersect r inv (negDirOf d) = some (s.fast_sel r inv d) := by
  simp only [BBox.fast_intersect, BBox.fast_sel, negDirOf, BBox.index_ite, checked_sub_ite,
    BBox.index_ite_flip, Option.some_bind]
  exact ite_ite_some _ _ _

/-- On one axis, the near/far plane parameters of `fast_intersect`
(corner selected by the direction sign, multiplied by the precomputed
reciprocal) agree with the brute-force parameters (division, then ordering
by `min`/`max`), provided the slab is well-ordered (`qa ≤ qb`) and, when the
direction component is zero, the origin does not lie exactly on either slab
plane (which would produce `0 * ∞ = NaN`). -/
theorem slab_pair (qa qb qo qd : ℚ) (hab : qa ≤ qb) (h0 : qd = 0 → qo ≠ qa ∧ qo ≠ qb) :
    F32.fmul (F32.fsub (if F32.flt (F32.fin qd) (F32.fin 0) then F32.fin qb else F32.fin qa)
          (F32.fin qo)) (recip (F32.fin qd)) =
        F32.fmin (F32.fdiv (F32.fsub (F32.fin qa) (F32.fin qo)) (F32.fin qd))
          (F32.fdiv (F32.fsub (F32.fin qb) (F32.fin qo)) (F32.fin qd)) ∧
      F32.fmul (F32.fsub (if F32.flt (F32.fin qd) (F32.fin 0) then F32.fin qa else F32.fin qb)
          (F32.fin qo)) (recip (F32.fin qd)) =
        F32.fmax (F32.fdiv (F32.fsub (F32.fin qa) (F32.fin qo)) (F32.fin qd))
          (F32.fdiv (F32.fsub (F32.fin qb) (F32.fin qo)) (F32.fin qd)) := by
  rcases lt_trichotomy qd 0 with hd | hd | hd
  · have hne : qd ≠ 0 := ne_of_lt hd
    have hc : F32.flt (F32.fin qd) (F32.fin 0) = true := by simp [F32.flt, hd]
    have h1 : (qb + -qo) / qd ≤ (qa + -qo) / qd :=
      div_le_div_of_nonpos_of_le hd.le (by linarith)
    simp only [hc, if_true, recip, F32.fsub, F32.fadd, F32.fneg, F32.fdiv, if_neg hne,
      F32.fmul, F32.fmin_fin, F32.fmax_fin, F32.fin.injEq,
      if_neg (by norm_num : ¬ ((1:ℚ) = 0))]
    constructor
    · rw [min_eq_right h1, mul_one_div]
    · rw [max_eq_left h1, mul_one_div]
  · subst hd
    obtain ⟨ha, hb⟩ := h0 rfl
    have hrec : recip (F32.fin 0) = F32.pinf := by norm_num [recip, F32.fdiv]
    have hc : F32.flt (F32.fin 0) (F32.fin 0) = false := by simp [F32.flt]
    rcases lt_trichotomy qo qa with h | h | h
    · have h1 : (0:ℚ) < qa + -qo := by linarith
      have h2 : (0:ℚ) < qb + -qo := by linarith
      simp [hc, hrec, F32.fsub, F32.fadd, F32.fneg, F32.fmul, F32.fdiv, h1, h2, h1.ne',
        h2.ne', F32.fmin, F32.fmax, F32.isNan, F32.flt]
    · exact absurd h ha
    · rcases lt_trichotomy qo qb with h2 | h2 | h2
      · have hu : qa + -qo < 0 := by linarith
        have hv : (0:ℚ) < qb + -qo := by linarith
        simp [hc, hrec, F32.fsub, F32.fadd, F32.fneg, F32.fmul, F32.fdiv, hu, hv, hu.ne,
          hv.ne', asymm hu, F32.fmin, F32.fmax, F32.isNan, F32.flt]
      · exact absurd h2 hb
      · have hu : qa + -qo < 0 := by linarith
        have hv : qb + -qo < 0 := by linarith
        simp [hc, hrec, F32.fsub, F32.fadd, F32.fneg, F32.fmul, F32.fdiv, hu, hv, hu.ne,
          hv.ne, asymm hu, asymm hv, F32.fmin, F32.fmax, F32.isNan, F32.flt]
  · have hne : qd ≠ 0 := ne_of_gt hd
    have hc : F32.flt (F32.fin qd) (F32.fin 0) = false := by simp [F32.flt, asymm hd]
    have h1 : (qa + -qo) / qd ≤ (qb + -qo) / qd :=
      (div_le_div_right hd).mpr (by linarith)
    simp only [hc, Bool.false_eq_true, if_false, recip, F32.fsub, F32.fadd, F32.fneg,
      F32.fdiv, if_neg hne, F32.fmul, F32.fmin_fin, F32.fmax_fin, F32.fin.injEq,
      if_neg (by norm_num : ¬ ((1:ℚ) = 0))]
    constructor
    · rw [min_eq_left h1, mul_one_div]
    · rw [max_eq_right h1, mul_one_div]

/-- C3 counterexample: on the valid unit box `[0,1]³` and the grazing ray
with origin `(1/2, 0, -1)` and direction `(0, 0, 1)` (zero direction
component on Y with the origin exactly on the `y = 0` slab plane),
`fast_intersect` (with the precomputed reciprocal direction and correct
`neg_dir`) reports a hit while the brute-force slab test reports a miss:
`0 * ∞ = NaN` is dropped by `f32::min`/`f32::max` in the brute-force
ordering but propagates through the comparisons of the optimized test.
This refutes the claimed equivalence as stated for all rays. -/
theorem C3_fast_intersect_counterexample :
    (BBox.span ⟨F32.fin 0, F32.fin 0, F32.fin 0⟩
          ⟨F32.fin 1, F32.fin 1, F32.fin 1⟩).fast_intersect
        ⟨⟨F32.fin (1/2), F32.fin 0, F32.fin (-1)⟩, ⟨F32.fin 0, F32.fin 0, F32.fin 1⟩,
          F32.fin 0, F32.fin 100⟩
        (invDirOf ⟨F32.fin 0, F32.fin 0, F32.fin 1⟩)
        (negDirOf ⟨F32.fin 0, F32.fin 0, F32.fin 1⟩) = some true ∧
      (BBox.span ⟨F32.fin 0, F32.fin 0, F32.fin 0⟩
          ⟨F32.fin 1, F32.fin 1, F32.fin 1⟩).slab_intersect
        ⟨⟨F32.fin (1/2), F32.fin 0, F32.fin (-1)⟩, ⟨F32.fin 0, F32.fin 0, F32.fin 1⟩,
          F32.fin 0, F32.fin 100⟩
        ⟨F32.fin 0, F32.fin 0, F32.fin 1⟩ = false := by
  constructor <;>
  norm_num [BBox.span, BBox.fast_intersect, BBox.slab_intersect, BBox.index, invDirOf,
    negDirOf, recip, checked_sub, F32.fsub, F32.fadd, F32.fneg, F32.fmul, F32.fdiv, F32.fmin,
    F32.fmax, F32.flt, F32.fle, F32.fgt, F32.isNan]

/-- C3 (amended): for every box with finite corners ordered `min ≤ max` on
each axis, and every ray with finite origin and finite direction whose
origin avoids the slab planes on each zero-direction axis, `fast_intersect`
called with the componentwise reciprocal `inv_dir` and the sign flags
`neg_dir` returns exactly the brute-force per-axis slab test's verdict
(and in particular does not panic). -/
theorem C3_fast_intersect_refines_slab
    (ax ay az bx b2 bz ox oy oz dx dy dz : ℚ) (tmn tmx : F32)
    (hx : ax ≤ bx) (hy : ay ≤ b2) (hz : az ≤ bz)
    (h0x : dx = 0 → ox ≠ ax ∧ ox ≠ bx)
    (h0y : dy = 0 → oy ≠ ay ∧ oy ≠ b2)
    (h0z : dz = 0 → oz ≠ az ∧ oz ≠ bz) :
    (BBox.span ⟨F32.fin ax, F32.fin ay, F32.fin az⟩
          ⟨F32.fin bx, F32.fin b2, F32.fin bz⟩).fast_intersect
        ⟨⟨F32.fin ox, F32.fin oy, F32.fin oz⟩, ⟨F32.fin dx, F32.fin dy, F32.fin dz⟩, tmn, tmx⟩
        (invDirOf ⟨F32.fin dx, F32.fin dy, F32.fin dz⟩)
        (negDirOf ⟨F32.fin dx, F32.fin dy, F32.fin dz⟩) =
      some ((BBox.span ⟨F32.fin ax, F32.fin ay, F32.fin az⟩
          ⟨F32.fin bx, F32.fin b2, F32.fin bz⟩).slab_intersect
        ⟨⟨F32.fin ox, F32.fin oy, F32.fin oz⟩, ⟨F32.fin dx, F32.fin dy, F32.fin dz⟩, tmn, tmx⟩
        ⟨F32.fin dx, F32.fin dy, F32.fin dz⟩) := by
  rw [BBox.fast_intersect_negDir]
  obtain ⟨e1x, e2x⟩ := slab_pair ax bx ox dx hx h0x
  obtain ⟨e1y, e2y⟩ := slab_pair ay b2 oy dy hy h0y
  obtain ⟨e1z, e2z⟩ := slab_pair az bz oz dz hz h0z
  congr 1
  simp only [BBox.fast_sel, BBox.slab_intersect, BBox.span, invDirOf]
  simp only [apply_ite Vec3.x, apply_ite Vec3.y, apply_ite Vec3.z]
  rw [e1x, e2x, e1y, e2y, e1z, e2z]

/-- Witness for C3 (amended) at the spec's concrete scenario: box
`[-3,3]³`, ray from `(0,0,-10)` along `(0,0,1)`. -/
theorem C3_fast_intersect_refines_slab_witness :
    (BBox.span ⟨F32.fin (-3), F32.fin (-3), F32.fin (-3)⟩
          ⟨F32.fin 3, F32.fin 3, F32.fin 3⟩).fast_intersect
        ⟨⟨F32.fin 0, F32.fin 0, F32.fin (-10)⟩, ⟨F32.fin 0, F32.fin 0, F32.fin 1⟩,
          F32.fin 0, F32.pinf⟩
        (invDirOf ⟨F32.fin 0, F32.fin 0, F32.fin 1⟩)
        (negDirOf ⟨F32.fin 0, F32.fin 0, F32.fin 1⟩) =
      some ((BBox.span ⟨F32.fin (-3), F32.fin (-3), F32.fin (-3)⟩
          ⟨F32.fin 3, F32.fin 3, F32.fin 3⟩).slab_intersect
        ⟨⟨F32.fin 0, F32.fin 0, F32.fin (-10)⟩, ⟨F32.fin 0, F32.fin 0, F32.fin 1⟩,
          F32.fin 0, F32.pinf⟩
        ⟨F32.fin 0, F32.fin 0, F32.fin 1⟩) :=
  C3_fast_intersect_refines_slab (-3) (-3) (-3) 3 3 3 0 0 (-10) 0 0 1 (F32.fin 0) F32.pinf
    (by norm_num) (by norm_num) (by norm_num)
    (fun _ => by norm_num) (fun _ => by norm_num)
    (fun h => absurd h (by norm_num))

theorem perm_cons_swap (x y : α) (v w : List α) :
    (x :: (v ++ y :: w)).Perm (y :: (v ++ x :: w)) :=
  ((List.Perm.cons x List.perm_middle).trans (List.Perm.swap y x (v ++ w))).trans
    (List.Perm.cons y List.perm_middle.symm)

theorem dropWhile_head_false {p : α → Bool} : ∀ {l rest : List α} {f : α},
    l.dropWhile p = f :: rest → p f = false := by
  intro l
  induction l with
  | nil => intro rest f h; simp [List.dropWhile] at h
  | cons a t ih =>
    intro rest f h
    by_cases hpa : p a = true
    · rw [List.dropWhile_cons_of_pos hpa] at h
      exact ih h
    · rw [List.dropWhile_cons_of_neg hpa] at h
      cases h
      simpa using hpa

theorem partitionFuel_eq_go (p : α → Bool) :
    ∀ (fuel : ℕ) (cur : List α), cur.length < fuel → ∀ (pre post : List α) (split : ℕ),
      partitionFuel p fuel pre cur post split = some (partitionGo p pre cur post split) := by
  intro fuel
  induction fuel with
  | zero => intro cur h; exact absurd h (Nat.not_lt_zero _)
  | succ n ih =>
    intro cur hlen pre post split
    rw [partitionGo.eq_def]
    split
    · rename_i h1
      simp [partitionFuel, h1]
    · rename_i f rest h1
      split
      · rename_i h2
        simp [partitionFuel, h1, h2]
      · rename_i b midrev h2
        simp only [partitionFuel, h1, h2]
        have hd1 : (cur.dropWhile p).length ≤ cur.length :=
          (List.dropWhile_sublist p).length_le
        have hd2 : (rest.reverse.dropWhile (fun x => !p x)).length ≤ rest.reverse.length :=
          (List.dropWhile_sublist (fun x => !p x)).length_le
        rw [h1] at hd1
        rw [h2] at hd2
        simp only [List.length_cons, List.length_reverse] at hd1 hd2
        exact ih midrev.reverse (by simp only [List.length_reverse]; omega) _ _ _

theorem partitionFuel_spec (p : α → Bool) :
    ∀ (fuel : ℕ) (cur pre post : List α) (split : ℕ) (res : List α × ℕ),
      (∀ x ∈ pre, p x = true) → (∀ x ∈ post, p x = false) → split = pre.length →
      partitionFuel p fuel pre cur post split = some res →
      ∃ A B, res.1 = A ++ B ∧ (∀ x ∈ A, p x = true) ∧ (∀ x ∈ B, p x = false) ∧
        res.2 = A.length ∧ res.1.Perm (pre ++ cur ++ post) := by
  intro fuel
  induction fuel with
  | zero => intro cur pre post split res _ _ _ h; simp [partitionFuel] at h
  | succ n ih =>
    intro cur pre post split res hpre hpost hsplit heq
    rcases hf : cur.dropWhile p with _ | ⟨f, rest⟩
    · simp only [partitionFuel, hf, Option.some.injEq] at heq
      subst heq
      have hcur : ∀ x ∈ cur, p x = true := by
        have h4 := List.dropWhile_eq_nil_iff.mp hf
        intro x hx
        exact h4 x hx
      have hc : cur.takeWhile p ++ cur.dropWhile p = cur := List.takeWhile_append_dropWhile p cur
      rw [hf, List.append_nil] at hc
      refine ⟨pre ++ cur, post, by simp, ?_, hpost, ?_, ?_⟩
      · intro x hx
        rcases List.mem_append.mp hx with h | h
        · exact hpre x h
        · exact hcur x h
      · simp [hc, hsplit]
      · exact List.Perm.refl _
    · rcases hb : rest.reverse.dropWhile (fun x => !p x) with _ | ⟨b, midrev⟩
      · simp only [partitionFuel, hf, hb, Option.some.injEq] at heq
        subst heq
        have hpf : p f = false := dropWhile_head_false hf
        have hrest : ∀ x ∈ rest, p x = false := by
          have h4 := List.dropWhile_eq_nil_iff.mp hb
          intro x hx
          have := h4 x (List.mem_reverse.mpr hx)
          simpa using this
        have hc : cur.takeWhile p ++ cur.dropWhile p = cur := List.takeWhile_append_dropWhile p cur
        rw [hf] at hc
        refine ⟨pre ++ cur.takeWhile p, f :: rest ++ post, ?_, ?_, ?_, ?_, ?_⟩
        · conv_lhs => rw [← hc]
          simp [List.append_assoc]
        · intro x hx
          rcases List.mem_append.mp hx with h | h
          · exact hpre x h
          · exact List.mem_takeWhile_imp h
        · intro x hx
          rcases List.mem_cons.mp hx with rfl | h
          · exact hpf
          · rcases List.mem_append.mp h with h | h
            · exact hrest x h
            · exact hpost x h
        · simp [hsplit]
        · exact List.Perm.refl _
      · simp only [partitionFuel, hf, hb] at heq
        have hpf : p f = false := dropWhile_head_false hf
        have hpb : p b = true := by
          have := dropWhile_head_false hb
          simpa using this
        have hfs : ∀ x ∈ (rest.reverse.takeWhile fun x => !p x), p x = false := by
          intro x hx
          have := List.mem_takeWhile_imp hx
          simpa using this
        obtain ⟨A, B, e1, e2, e3, e4, e5⟩ :=
          ih midrev.reverse (pre ++ cur.takeWhile p ++ [b])
            (f :: ((rest.reverse.takeWhile fun x => !p x).reverse ++ post))
            (split + (cur.takeWhile p).length + 1) res
            (by
              intro x hx
              rcases List.mem_append.mp hx with h | h
              · rcases List.mem_append.mp h with h | h
                · exact hpre x h
                · exact List.mem_takeWhile_imp h
              · rcases List.mem_singleton.mp h with rfl
                exact hpb)
            (by
              intro x hx
              rcases List.mem_cons.mp hx with rfl | h
              · exact hpf
              · rcases List.mem_append.mp h with h | h
                · exact hfs x (List.mem_reverse.mp h)
                · exact hpost x h)
            (by simp [hsplit, Nat.add_assoc])
            heq
        refine ⟨A, B, e1, e2, e3, e4, e5.trans ?_⟩
        have hc : cur.takeWhile p ++ cur.dropWhile p = cur := List.takeWhile_append_dropWhile p cur
        rw [hf] at hc
        have hr : rest = midrev.reverse ++ (b :: (rest.reverse.takeWhile fun x => !p x).reverse) := by
          have h5 : (rest.reverse.takeWhile fun x => !p x) ++
              (rest.reverse.dropWhile fun x => !p x) = rest.reverse :=
            List.takeWhile_append_dropWhile (fun x => !p x) rest.reverse
          rw [hb] at h5
          have h6 := congrArg List.reverse h5
          simpa [List.reverse_append, List.reverse_cons, List.append_assoc] using h6.symm
        conv_rhs => rw [← hc, hr]
        simp only [List.append_assoc, List.cons_append, List.nil_append, List.singleton_append]
        exact List.Perm.append_left pre
          (List.Perm.append_left (cur.takeWhile p) (perm_cons_swap b f _ _))

/-! ## C9 and C1: termination and correctness of `partition` -/

/-- C9: the function `partition` terminates on every finite sequence and predicate: the
fuel-indexed transcription of the loop (`partitionFuel`), which stops with
`none` if the outer loop has not exited after the given number of
iterations, completes within `length + 1` outer iterations and returns the
value of the total function `partition`. -/
theorem C9_partition_terminates (p : α → Bool) (l : List α) :
    partitionFuel p (l.length + 1) [] l [] 0 = some (partition p l) :=
  partitionFuel_eq_go p (l.length + 1) l (Nat.lt_succ_self _) [] [] 0

/-- C1: the function `partition` reorders the sequence into a permutation (same
multiset) of the input such that every element at an index below the
returned split index satisfies the predicate and every element at or above
it does not, and the returned split index is the number of predicate-true
elements. -/
theorem C1_partition_correct (p : α → Bool) (l : List α) :
    (partition p l).1.Perm l ∧ (partition p l).2 = l.countP p ∧
      ∀ (i : ℕ) (h : i < (partition p l).1.length),
        (p ((partition p l).1.get ⟨i, h⟩) = true ↔ i < (partition p l).2) := by
  obtain ⟨A, B, e1, e2, e3, e4, e5⟩ :=
    partitionFuel_spec p (l.length + 1) l [] [] 0 (partition p l)
      (by simp) (by simp) rfl
      (partitionFuel_eq_go p (l.length + 1) l (Nat.lt_succ_self _) [] [] 0)
  have hperm : (partition p l).1.Perm l := by simpa using e5
  refine ⟨hperm, ?_, ?_⟩
  · have hcount : (partition p l).1.countP p = l.countP p := hperm.countP_eq p
    have hA : A.countP p = A.length :=
      List.countP_eq_length.mpr (fun a ha => by simp [e2 a ha])
    have hB : B.countP p = 0 :=
      List.countP_eq_zero.mpr (fun a ha => by simp [e3 a ha])
    rw [← hcount, e1, e4, List.countP_append, hA, hB]
    omega
  · intro i hi
    rw [e4]
    have hi2 : i < (A ++ B).length := by rw [← e1]; exact hi
    have hget : (partition p l).1.get ⟨i, hi⟩ = (A ++ B).get ⟨i, hi2⟩ :=
      List.get_of_eq e1 ⟨i, hi⟩
    rw [hget]
    constructor
    · intro hp
      by_contra hge
      push_neg at hge
      have hmem : (A ++ B).get ⟨i, hi2⟩ ∈ B := by
        rw [List.get_eq_getElem, List.getElem_append_right hge]
        exact List.getElem_mem _
      have hfalse := e3 _ hmem
      simp only [List.get_eq_getElem] at hfalse
      simp [hfalse] at hp
    · intro hlt
      have hmem : (A ++ B).get ⟨i, hi2⟩ ∈ A := by
        rw [List.get_eq_getElem, List.getElem_append_left hlt]
        exact List.getElem_mem _
      exact e2 _ hmem

/-- Witness for C1 on the spec's concrete scenario: partitioning
`[1,2,3,4,5]` by evenness yields split index 2 (the even prefix `{4, 2}`
followed by the odd suffix `{3, 1, 5}`). -/
theorem C1_partition_correct_witness :
    (partition (fun n => n % 2 == 0) [1, 2, 3, 4, 5]).1 = [4, 2, 3, 1, 5] ∧
      (partition (fun n => n % 2 == 0) [1, 2, 3, 4, 5]).2 = 2 ∧
      (partition (fun n => n % 2 == 0) [1, 2, 3, 4, 5]).1.Perm [1, 2, 3, 4, 5] ∧
      (((4 : ℕ) % 2 == 0) = true ↔ (0 : ℕ) < 2) := by
  have h := C1_partition_correct (fun n => n % 2 == 0) [1, 2, 3, 4, 5]
  have hval : partition (fun n => n % 2 == 0) [1, 2, 3, 4, 5] = ([4, 2, 3, 1, 5], 2) := by
    have hsim := partitionFuel_eq_go (fun n => n % 2 == 0) 6 [1, 2, 3, 4, 5]
      (by decide) [] [] 0
    have hev : partitionFuel (fun n => n % 2 == 0) 6 [] [1, 2, 3, 4, 5] [] 0 =
        some ([4, 2, 3, 1, 5], 2) := by decide
    exact Option.some.inj ((hsim.symm.trans hev))
  have h0 : 0 < (partition (fun n => n % 2 == 0) [1, 2, 3, 4, 5]).1.length := by
    rw [hval]; decide
  have h4 := h.2.2 0 h0
  refine ⟨congrArg Prod.fst hval, congrArg Prod.snd hval, h.1, ?_⟩
  simpa [hval] using h4
